import Mathlib

/-!
Verification of the font-face extraction and source-selection pipeline of
`download_fonts.py` (webpage-fonts-downloader).

The Python source is shallowly embedded as executable Lean functions over
`List Char` / `String`.  The two hand-written regular expressions of the
source (`extract_font_url`, `parse_css_with_regex`) are embedded by a small
continuation-passing backtracking engine whose alternative order matches
Python's `re` semantics for these patterns: leftmost match first, greedy
quantifiers (longer first), optional elements (present first).  Character
classes (`\s`, `\w`, case folding) are modelled at ASCII fidelity, matching
Python on ASCII input.  `urllib.parse.urljoin` / `urlparse` are collaborator
library functions; they are modelled for absolute `http(s)` base URLs
(relative resolution without dot-segment normalisation), which is the only
way the program calls them (base URLs are fetched page / stylesheet URLs).
-/

/-! ### Data model (`FontCategory`, `FontFace`, source lines 29-45) -/

inductive FontCategory where
  | serif
  | sansSerif
  | monospace
  | display
  | unknown
deriving DecidableEq, Repr

/-- One parsed `@font-face` rule (class `FontFace`, source lines 37-45). -/
structure FontFace where
  family : String
  url : String
  weight : String := "400"
  style : String := "normal"
  format : Option String := none
  category : FontCategory := FontCategory.unknown
deriving DecidableEq, Repr

/-! ### Character helpers (ASCII fidelity of Python's `\s`, quotes, `\w`) -/

/-- Python regex `\s` on ASCII: space, tab, newline, carriage return, vertical tab, form feed. -/
def isPyWs (c : Char) : Bool :=
  c = ' ' || c = '\t' || c = '\n' || c = '\r' || c = '\x0b' || c = '\x0c'

def isQuote (c : Char) : Bool :=
  c = '"' || c = '\''

/-- The character class `[^"\')\s]` of the `url(...)` / `format(...)` regexes. -/
def urlChar (c : Char) : Bool :=
  !(c = '"' || c = '\'' || c = ')' || isPyWs c)

/-- The character class `[^;'\"]` of the fallback `font-family` regex. -/
def famChar (c : Char) : Bool :=
  !(c = ';' || c = '\'' || c = '"')

/-- Python regex `\w` on ASCII: letters, digits, underscore. -/
def isWordChar (c : Char) : Bool :=
  ('a' ≤ c && c ≤ 'z') || ('A' ≤ c && c ≤ 'Z') || ('0' ≤ c && c ≤ '9') || c = '_'

/-- Python `str.lower` on ASCII. -/
def lowerS (l : List Char) : List Char :=
  l.map Char.toLower

/-! ### A CPS backtracking engine for the source's regular expressions

Each combinator takes the remaining input and a continuation and returns the
first success in Python `re` preference order.  `oOr` is explicit
left-biased choice on `Option` (first alternative preferred). -/

def oOr (a b : Option α) : Option α :=
  match a with
  | some x => some x
  | none => b

/-- Match a literal, case sensitively. -/
def mLit (l s : List Char) (k : List Char → Option α) : Option α :=
  match l, s with
  | [], s => k s
  | _ :: _, [] => none
  | a :: l', b :: s' => if a = b then mLit l' s' k else none

/-- Match a literal case-insensitively (regex `re.IGNORECASE`, ASCII folding). -/
def mLitCI (l s : List Char) (k : List Char → Option α) : Option α :=
  match l, s with
  | [], s => k s
  | _ :: _, [] => none
  | a :: l', b :: s' => if a.toLower = b.toLower then mLitCI l' s' k else none

/-- Greedy `cls?`: try consuming one class character first, then not. -/
def mOptCls (p : Char → Bool) (s : List Char) (k : List Char → Option α) : Option α :=
  match s with
  | [] => k []
  | c :: cs => if p c then oOr (k cs) (k (c :: cs)) else k (c :: cs)

/-- Greedy `cls*`: prefer consuming more class characters. -/
def mStarCls (p : Char → Bool) (s : List Char) (k : List Char → Option α) : Option α :=
  match s with
  | [] => k []
  | c :: cs => if p c then oOr (mStarCls p cs k) (k (c :: cs)) else k (c :: cs)

/-- Greedy capturing `cls*`: the continuation receives the captured prefix
and the rest; longer captures are preferred. -/
def starCap (p : Char → Bool) (s : List Char) (k : List Char → List Char → Option α) :
    Option α :=
  match s with
  | [] => k [] []
  | c :: cs =>
    if p c then oOr (starCap p cs (fun cap rest => k (c :: cap) rest)) (k [] (c :: cs))
    else k [] (c :: cs)

/-- Greedy capturing `cls+` (at least one character). -/
def mPlusCap (p : Char → Bool) (s : List Char) (k : List Char → List Char → Option α) :
    Option α :=
  match s with
  | [] => none
  | c :: cs => if p c then starCap p cs (fun cap rest => k (c :: cap) rest) else none

/-- `re.search`: try a match at every position, leftmost first (including the
empty position at the end of the input). -/
def reFind (m : List Char → Option α) : List Char → Option α
  | [] => m []
  | c :: cs => oOr (m (c :: cs)) (reFind m cs)

/-! ### The concrete matchers of the source's regexes -/

/-- Anchored matcher of `url\(["\']?([^"\')\s]+)["\']?\)` (source line 126),
returning the captured group. -/
def matchUrlAt (s : List Char) : Option (List Char) :=
  mLit "url(".data s fun s1 =>
  mOptCls isQuote s1 fun s2 =>
  mPlusCap urlChar s2 fun cap s3 =>
  mOptCls isQuote s3 fun s4 =>
  mLit ")".data s4 fun _ => some cap

/-- Anchored matcher of `format\(["\']?([^"\')\s]+)["\']?\)` (source line 135). -/
def matchFormatAt (s : List Char) : Option (List Char) :=
  mLit "format(".data s fun s1 =>
  mOptCls isQuote s1 fun s2 =>
  mPlusCap urlChar s2 fun cap s3 =>
  mOptCls isQuote s3 fun s4 =>
  mLit ")".data s4 fun _ => some cap

/-- Anchored matcher of `font-family\s*:\s*['\"]?([^;'\"]+)['\"]?\s*;`
(source line 216). -/
def matchFamilyAt (s : List Char) : Option (List Char) :=
  mLit "font-family".data s fun s1 =>
  mStarCls isPyWs s1 fun s2 =>
  mLit ":".data s2 fun s3 =>
  mStarCls isPyWs s3 fun s4 =>
  mOptCls isQuote s4 fun s5 =>
  mPlusCap famChar s5 fun cap s6 =>
  mOptCls isQuote s6 fun s7 =>
  mStarCls isPyWs s7 fun s8 =>
  mLit ";".data s8 fun _ => some cap

/-- Anchored matcher of `src\s*:\s*([^;]+);` (source line 217). -/
def matchSrcAt (s : List Char) : Option (List Char) :=
  mLit "src".data s fun s1 =>
  mStarCls isPyWs s1 fun s2 =>
  mLit ":".data s2 fun s3 =>
  mStarCls isPyWs s3 fun s4 =>
  mPlusCap (fun c => c ≠ ';') s4 fun cap s5 =>
  mLit ";".data s5 fun _ => some cap

/-- Anchored matcher of `font-weight\s*:\s*([^;]+);` (source line 218). -/
def matchWeightAt (s : List Char) : Option (List Char) :=
  mLit "font-weight".data s fun s1 =>
  mStarCls isPyWs s1 fun s2 =>
  mLit ":".data s2 fun s3 =>
  mStarCls isPyWs s3 fun s4 =>
  mPlusCap (fun c => c ≠ ';') s4 fun cap s5 =>
  mLit ";".data s5 fun _ => some cap

/-- Anchored matcher of `font-style\s*:\s*([^;]+);` (source line 219). -/
def matchStyleAt (s : List Char) : Option (List Char) :=
  mLit "font-style".data s fun s1 =>
  mStarCls isPyWs s1 fun s2 =>
  mLit ":".data s2 fun s3 =>
  mStarCls isPyWs s3 fun s4 =>
  mPlusCap (fun c => c ≠ ';') s4 fun cap s5 =>
  mLit ";".data s5 fun _ => some cap

/-- Anchored matcher of the block regex `@font-face\s*\{([^}]+)\}` with
`re.IGNORECASE` (source line 212); returns the captured block body and the
rest of the input after the match (used to continue `re.finditer`). -/
def matchBlockAt (s : List Char) : Option (List Char × List Char) :=
  mLitCI "@font-face".data s fun s1 =>
  mStarCls isPyWs s1 fun s2 =>
  mLit "\x7b".data s2 fun s3 =>
  mPlusCap (fun c => c ≠ '\x7d') s3 fun cap s4 =>
  mLit "\x7d".data s4 fun rest => some (cap, rest)

/-! ### The classifier's pattern language (source lines 58-120)

Each classifier pattern is a sequence of literal segments separated by gaps:
`.any` (unconstrained characters before the first segment), `.ws` for `\s*`,
`.dot` for `.*` (no newline, since `re.DOTALL` is not passed to
`classify_font`'s searches).  Boolean `re.search` over such a pattern is an
existence check, implemented with full backtracking over occurrences. -/

inductive Gap where
  | any
  | ws
  | dot
deriving DecidableEq, Repr

def gapAllows : Gap → Char → Bool
  | Gap.any, _ => true
  | Gap.ws, c => isPyWs c
  | Gap.dot, c => c ≠ '\n'

/-- Find `seg` at some position reachable through `g`-allowed characters, and
succeed if the continuation succeeds on the rest for some such position. -/
def findFromK (g : Gap) (seg : List Char) (k : List Char → Bool) : List Char → Bool
  | [] => seg.isPrefixOf [] && k []
  | c :: cs =>
    (seg.isPrefixOf (c :: cs) && k ((c :: cs).drop seg.length)) ||
    (gapAllows g c && findFromK g seg k cs)

def reSearchAux : List (Gap × List Char) → List Char → Bool
  | [], _ => true
  | (g, seg) :: ps, s => findFromK g seg (fun rest => reSearchAux ps rest) s

/-- Boolean `re.search pattern s` for the classifier's patterns. -/
def reSearch (p : List (Gap × List Char)) (s : List Char) : Bool :=
  reSearchAux p s

/-- `SERIF_PATTERNS` (source lines 58-75). -/
def SERIF_PATTERNS : List (List (Gap × List Char)) :=
  [ [(Gap.any, "serif".data)]
  , [(Gap.any, "georgia".data)]
  , [(Gap.any, "times".data)]
  , [(Gap.any, "garamond".data)]
  , [(Gap.any, "palatino".data)]
  , [(Gap.any, "cambria".data)]
  , [(Gap.any, "didot".data)]
  , [(Gap.any, "bodoni".data)]
  , [(Gap.any, "caslon".data)]
  , [(Gap.any, "baskerville".data)]
  , [(Gap.any, "minion".data)]
  , [(Gap.any, "sabon".data)]
  , [(Gap.any, "bembo".data)]
  , [(Gap.any, "plantin".data)]
  , [(Gap.any, "econ".data), (Gap.dot, "serif".data)]
  , [(Gap.any, "economist".data), (Gap.dot, "serif".data)] ]

/-- `SANS_PATTERNS` (source lines 77-95). -/
def SANS_PATTERNS : List (List (Gap × List Char)) :=
  [ [(Gap.any, "sans".data)]
  , [(Gap.any, "arial".data)]
  , [(Gap.any, "helvetica".data)]
  , [(Gap.any, "verdana".data)]
  , [(Gap.any, "tahoma".data)]
  , [(Gap.any, "roboto".data)]
  , [(Gap.any, "open".data), (Gap.ws, "sans".data)]
  , [(Gap.any, "lato".data)]
  , [(Gap.any, "montserrat".data)]
  , [(Gap.any, "proxima".data)]
  , [(Gap.any, "futura".data)]
  , [(Gap.any, "avenir".data)]
  , [(Gap.any, "gotham".data)]
  , [(Gap.any, "gill".data)]
  , [(Gap.any, "franklin".data)]
  , [(Gap.any, "econ".data), (Gap.dot, "sans".data)]
  , [(Gap.any, "economist".data), (Gap.dot, "sans".data)] ]

/-- `MONO_PATTERNS` (source lines 97-105). -/
def MONO_PATTERNS : List (List (Gap × List Char)) :=
  [ [(Gap.any, "mono".data)]
  , [(Gap.any, "courier".data)]
  , [(Gap.any, "consolas".data)]
  , [(Gap.any, "menlo".data)]
  , [(Gap.any, "fira".data), (Gap.ws, "code".data)]
  , [(Gap.any, "source".data), (Gap.ws, "code".data)]
  , [(Gap.any, "jetbrains".data)] ]

/-- `classify_font` (source lines 108-120): lower-case the family, test the
monospace patterns first, then sans-serif, then serif; first match wins. -/
def classify_font (family : String) : FontCategory :=
  let fl := lowerS family.data
  if MONO_PATTERNS.any (fun p => reSearch p fl) then FontCategory.monospace
  else if SANS_PATTERNS.any (fun p => reSearch p fl) then FontCategory.sansSerif
  else if SERIF_PATTERNS.any (fun p => reSearch p fl) then FontCategory.serif
  else FontCategory.unknown

/-! ### String utilities: `str.strip`, `str.split(",")`, `str.strip("'\"")` -/

/-- Python `str.strip()` (ASCII whitespace). -/
def pyStrip (l : List Char) : List Char :=
  ((l.dropWhile isPyWs).reverse.dropWhile isPyWs).reverse

/-- Python `str.strip("'\"")` (source line 150). -/
def stripQuotes (l : List Char) : List Char :=
  ((l.dropWhile isQuote).reverse.dropWhile isQuote).reverse

/-- Python `str.split(",")`: split at every comma, keeping empty pieces. -/
def splitComma : List Char → List (List Char)
  | [] => [[]]
  | c :: cs =>
    if c = ',' then [] :: splitComma cs
    else
      match splitComma cs with
      | [] => [[c]]
      | p :: ps => (c :: p) :: ps

/-! ### `urllib.parse` collaborator model (`urljoin`, `urlparse(...).path`,
`pathlib.Path(...).name` / `.suffix`) -/

/-- URL scheme characters (letters, digits, `+`, `-`, `.`). -/
def schemeChar (c : Char) : Bool :=
  c.isAlpha || c.isDigit || c = '+' || c = '-' || c = '.'

/-- Split a leading `scheme:` off a URL, as `urlsplit` does: the scheme is a
nonempty run of scheme characters starting with a letter, followed by `:`. -/
def schemeSplit (u : List Char) : Option (List Char × List Char) :=
  let s := u.takeWhile schemeChar
  let rest := u.drop s.length
  match s with
  | [] => none
  | c :: _ =>
    if c.isAlpha then
      match rest with
      | ':' :: r => some (s, r)
      | _ => none
    else none

/-- The `path` component of `urlparse`: strip `scheme:`, strip a `//netloc`,
cut at `?` or `#`. -/
def pathOf (u : List Char) : List Char :=
  let rest := match schemeSplit u with
              | some (_, r) => r
              | none => u
  if "//".data.isPrefixOf rest then
    let after := rest.drop 2
    let afterHost := after.dropWhile (fun c => !(c = '/' || c = '?' || c = '#'))
    afterHost.takeWhile (fun c => !(c = '?' || c = '#'))
  else rest.takeWhile (fun c => !(c = '?' || c = '#'))

/-- `pathlib.Path(p).name`: the last path segment, with empty and `.`
segments dropped. -/
def lastSegOf (p : List Char) : List Char :=
  let segs := (p.splitOn '/').filter (fun s => s ≠ [] && s ≠ ['.'])
  segs.getLastD []

/-- `pathlib.Path(name).suffix` for a single segment: from the last dot,
empty when there is no dot, the dot is first, or the dot is last. -/
def suffixOf (name : List Char) : List Char :=
  let r := name.reverse
  let afterDot := r.takeWhile (fun c => c ≠ '.')
  if afterDot.length = r.length || afterDot.length = 0 || afterDot.length + 1 = r.length
  then []
  else '.' :: afterDot.reverse

/-- The directory part of a base path: up to and including the last `/`, or
`/` when the path has none (`urljoin`'s segment replacement). -/
def dirOf (p : List Char) : List Char :=
  let r := p.reverse.dropWhile (fun c => c ≠ '/')
  if r = [] then ['/'] else r.reverse

/-- Model of `urllib.parse.urljoin` for the cases this program exercises:
a URL that already has a scheme is returned unchanged; `//...` inherits the
base scheme; `/...` replaces the base path; anything else replaces the last
base path segment.  Dot-segment normalisation, query/fragment handling and
schemeless bases are out of model (base URLs here are absolute `http(s)`
page / stylesheet URLs). -/
def urljoin (base url : String) : String :=
  if url.data = [] then base
  else if (schemeSplit url.data).isSome then url
  else
    match schemeSplit base.data with
    | none => url
    | some (bs, brest) =>
      if "//".data.isPrefixOf url.data then String.mk (bs ++ ':' :: url.data)
      else
        let netpath := if "//".data.isPrefixOf brest then brest.drop 2 else brest
        let host := netpath.takeWhile (fun c => !(c = '/' || c = '?' || c = '#'))
        let bpath := (netpath.drop host.length).takeWhile (fun c => !(c = '?' || c = '#'))
        if "/".data.isPrefixOf url.data then
          String.mk (bs ++ ':' :: '/' :: '/' :: (host ++ url.data))
        else
          String.mk (bs ++ ':' :: '/' :: '/' :: (host ++ dirOf bpath ++ url.data))

/-! ### `extract_font_url` (source lines 123-137) -/

/-- `extract_font_url`: search for `url(...)`, skip data URIs, resolve
against the base URL, and capture an optional sibling `format(...)`. -/
def extract_font_url (src_value base_url : String) : Option (String × Option String) :=
  match reFind matchUrlAt src_value.data with
  | none => none
  | some raw =>
    if "data:".data.isPrefixOf raw then none
    else
      some (urljoin base_url (String.mk raw),
            (reFind matchFormatAt src_value.data).map String.mk)

/-! ### Format priority and source selection (source lines 159-179) -/

/-- The declared-format priority map `\x7bwoff2:0, woff:1, truetype:2,
opentype:3, embedded-opentype:4\x7d` with default 5 (source line 161). -/
def formatPriority (f : String) : Nat :=
  if f = "woff2" then 0
  else if f = "woff" then 1
  else if f = "truetype" then 2
  else if f = "opentype" then 3
  else if f = "embedded-opentype" then 4
  else 5

/-- The extension priority map `\x7b.woff2:0, .woff:1, .ttf:2, .otf:3,
.eot:4\x7d` with default 5 (source line 172). -/
def extPriority (e : List Char) : Nat :=
  if e = ".woff2".data then 0
  else if e = ".woff".data then 1
  else if e = ".ttf".data then 2
  else if e = ".otf".data then 3
  else if e = ".eot".data then 4
  else 5

/-- The lower-cased extension of a resolved URL:
`Path(urlparse(url).path).suffix.lower()` (source line 171). -/
def extOf (url : String) : List Char :=
  lowerS (suffixOf (lastSegOf (pathOf url.data)))

/-- The priority of one candidate (source lines 168-173): a declared format
is ranked by `formatPriority`; an undeclared one by the URL's extension. -/
def rankOf (url : String) (fmt : Option String) : Nat :=
  match fmt with
  | some f => formatPriority f
  | none => extPriority (extOf url)

/-- One candidate source: URL, declared format, priority. -/
abbrev Cand := String × Option String × Nat

/-- The candidate list of a `src` value (source lines 163-174): split at
commas, strip each fragment, extract URL/format, attach the priority. -/
def candidatesOf (src_value base_url : String) : List Cand :=
  (splitComma src_value.data).filterMap fun part =>
    match extract_font_url (String.mk (pyStrip part)) base_url with
    | some (u, f) => some (u, f, rankOf u f)
    | none => none

/-- Stable insertion of a candidate into a priority-sorted list: placed
before the first strictly-greater priority, after equal ones. -/
def insertCand (c : Cand) : List Cand → List Cand
  | [] => [c]
  | d :: ds => if c.2.2 ≤ d.2.2 then c :: d :: ds else d :: insertCand c ds

/-- Stable sort by priority, modelling Python's stable `list.sort(key=...)`
(source line 178). -/
def sortCands : List Cand → List Cand
  | [] => []
  | c :: cs => insertCand c (sortCands cs)

/-- Source selection (source lines 175-179): sort the candidates by priority
(stably) and take the first; `none` when no candidate survived. -/
def select_best_source (src_value base_url : String) : Option Cand :=
  (sortCands (candidatesOf src_value base_url)).head?

/-! ### `parse_font_face_rule` (source lines 140-191) -/

/-- A rule of the structured CSS-parsing collaborator (`cssutils`), reduced
to what the source reads: a `@font-face` rule exposes its property
name/value pairs in source order; any other rule is skipped. -/
inductive CssRule where
  | fontFace (props : List (String × String))
  | other
deriving DecidableEq, Repr

structure RuleAcc where
  family : Option String
  weight : String
  style : String
  src : Option String
deriving DecidableEq, Repr

/-- One step of the property loop (source lines 147-156): later same-named
properties overwrite earlier ones; the family value has quotes stripped. -/
def applyProp (acc : RuleAcc) (p : String × String) : RuleAcc :=
  if p.1 = "font-family" then { acc with family := some (String.mk (stripQuotes p.2.data)) }
  else if p.1 = "font-weight" then { acc with weight := p.2 }
  else if p.1 = "font-style" then { acc with style := p.2 }
  else if p.1 = "src" then { acc with src := some p.2 }
  else acc

/-- `parse_font_face_rule` (source lines 140-191): fold the properties,
require a nonempty family and src, select the best source, classify. -/
def parse_font_face_rule (props : List (String × String)) (base_url : String) :
    List FontFace :=
  let acc := props.foldl applyProp ⟨none, "400", "normal", none⟩
  match acc.family, acc.src with
  | some family, some src_value =>
    if family = "" || src_value = "" then []
    else
      match select_best_source src_value base_url with
      | none => []
      | some (u, f, _) =>
        [{ family := family, url := u, weight := acc.weight, style := acc.style,
           format := f, category := classify_font family }]
  | _, _ => []

/-! ### The regex fallback scanner `parse_css_with_regex` (source lines 208-240) -/

/-- Processing of one matched `@font-face` block body (source lines 214-239):
independently search the four property regexes; require family and src;
extract a single URL/format from the whole src value. -/
def processBlock (block : List Char) (base_url : String) : Option FontFace :=
  match reFind matchFamilyAt block, reFind matchSrcAt block with
  | some famC, some srcC =>
    let family := String.mk (pyStrip famC)
    let src_value := String.mk (pyStrip srcC)
    let weight := match reFind matchWeightAt block with
                  | some c => String.mk (pyStrip c)
                  | none => "400"
    let style := match reFind matchStyleAt block with
                 | some c => String.mk (pyStrip c)
                 | none => "normal"
    match extract_font_url src_value base_url with
    | some (u, f) =>
      some { family := family, url := u, weight := weight, style := style,
             format := f, category := classify_font family }
    | none => none
  | _, _ => none

/-- `re.finditer` over the block regex: repeatedly find the next block and
continue after its closing brace.  Each match consumes at least one
character, so fuel equal to the input length covers every match. -/
def findFaceBlocks : Nat → List Char → List (List Char)
  | 0, _ => []
  | fuel + 1, s =>
    match reFind matchBlockAt s with
    | some (cap, rest) => cap :: findFaceBlocks fuel rest
    | none => []

/-- `parse_css_with_regex` (source lines 208-240). -/
def parse_css_with_regex (css_text base_url : String) : List FontFace :=
  (findFaceBlocks css_text.data.length css_text.data).filterMap
    (fun b => processBlock b base_url)

/-! ### `parse_css_for_fonts` (source lines 194-205)

`cssutils.parseString` either returns the whole parsed sheet or raises
before any rule is iterated (the collaborator contract: an iterable of rule
objects, or a parse error); the structured outcome is therefore modelled as
an `Except`.  On error the source's `except` branch extends the still-empty
accumulator with the regex fallback result. -/

def parse_css_for_fonts (structured : Except Unit (List CssRule))
    (css_text base_url : String) : List FontFace :=
  match structured with
  | Except.ok rules =>
    (rules.map fun r =>
      match r with
      | CssRule.fontFace props => parse_font_face_rule props base_url
      | CssRule.other => []).flatten
  | Except.error _ => parse_css_with_regex css_text base_url

/-! ### Post-processing (source lines 367-386) -/

/-- The loop of `deduplicate_fonts` with its `seen_urls` set (as a list). -/
def dedupAux (seen : List String) : List FontFace → List FontFace
  | [] => []
  | f :: fs =>
    if f.url ∈ seen then dedupAux seen fs
    else f :: dedupAux (f.url :: seen) fs

/-- `deduplicate_fonts` (source lines 367-375). -/
def deduplicate_fonts (fonts : List FontFace) : List FontFace :=
  dedupAux [] fonts

/-- `filter_fonts` (source lines 378-386): `none` means "all categories". -/
def filter_fonts (fonts : List FontFace) (categories : Option (List FontCategory)) :
    List FontFace :=
  match categories with
  | none => fonts
  | some cs => fonts.filter (fun f => f.category ∈ cs)

/-! ### Download filename (source lines 296-307) -/

/-- `re.sub(r"[^\w\-]", "_", family)`: a single-character class, so a
character-wise map (source line 302). -/
def sanitizeFamily (l : List Char) : List Char :=
  l.map (fun c => if isWordChar c || c = '-' then c else '_')

/-- One pass of `re.sub(r"\s+", "_", weight)`: each maximal whitespace run
becomes a single underscore (source line 303).  The flag records whether the
previous character was inside a whitespace run. -/
def sanWAux : Bool → List Char → List Char
  | _, [] => []
  | inRun, c :: cs =>
    if isPyWs c then
      if inRun then sanWAux true cs else '_' :: sanWAux true cs
    else c :: sanWAux false cs

def sanitizeWeight (l : List Char) : List Char :=
  sanWAux false l

/-- Python `f"\x7bindex:02d\x7d"` for a natural number. -/
def pad2 (n : Nat) : List Char :=
  if n < 10 then '0' :: (Nat.repr n).data else (Nat.repr n).data

/-- The filename built by `download_font` (source lines 296-305):
`\x7bsafe_family\x7d-\x7bsafe_weight\x7d-\x7bstyle\x7d-\x7bindex:02d\x7d\x7bext\x7d`,
where the extension comes from the URL path's last segment (query split off)
and defaults to `.woff2`. -/
def font_filename (font : FontFace) (index : Nat) : String :=
  let original_name := (lastSegOf (pathOf font.url.data)).takeWhile (fun c => c ≠ '?')
  let ext0 := suffixOf (lastSegOf original_name)
  let ext := if ext0 = [] then ".woff2".data else ext0
  String.mk (sanitizeFamily font.family.data ++ '-' ::
             (sanitizeWeight font.weight.data ++ '-' ::
              (font.style.data ++ '-' :: (pad2 index ++ ext))))

/-- The filenames produced by the download loop of `main` (source lines
531-532): each font is downloaded with its zero-based position in the final
list as index. -/
def downloadFilenames (fonts : List FontFace) : List String :=
  fonts.enum.map (fun p => font_filename p.2 p.1)

/-! ## Helper lemmas -/

theorem oOr_eq_some {a b : Option α} {r : α} :
    oOr a b = some r ↔ a = some r ∨ (a = none ∧ b = some r) := by
  cases a <;> simp [oOr]

/-! ### Deduplication lemmas -/

/-- The specification-side description of deduplication: keep each list head
and drop every later entry with the same `url` (whatever its other fields),
recursively. -/
def keepFirstByUrl : List FontFace → List FontFace
  | [] => []
  | f :: fs => f :: keepFirstByUrl (fs.filter (fun g => g.url ≠ f.url))
termination_by l => l.length
decreasing_by
  simp only [List.length_cons]
  exact Nat.lt_succ_of_le (List.length_filter_le _ _)

theorem keepFirstByUrl_nil : keepFirstByUrl [] = [] := by
  simp [keepFirstByUrl]

theorem keepFirstByUrl_cons (f : FontFace) (fs : List FontFace) :
    keepFirstByUrl (f :: fs) = f :: keepFirstByUrl (fs.filter (fun g => g.url ≠ f.url)) := by
  simp [keepFirstByUrl]

theorem dedupAux_eq (fs : List FontFace) : ∀ seen : List String,
    dedupAux seen fs = keepFirstByUrl (fs.filter (fun g => g.url ∉ seen)) := by
  induction fs with
  | nil => intro seen; simp [dedupAux, keepFirstByUrl_nil]
  | cons f fs ih =>
    intro seen
    by_cases h : f.url ∈ seen
    · rw [dedupAux, if_pos h, ih seen, List.filter_cons]
      simp [h]
    · rw [dedupAux, if_neg h, ih (f.url :: seen), List.filter_cons]
      simp only [h, not_false_eq_true, decide_True, if_pos]
      rw [keepFirstByUrl_cons, List.filter_filter]
      congr 1
      apply congrArg keepFirstByUrl
      apply List.filter_congr
      intro g _
      simp [List.mem_cons, not_or, eq_comm, and_comm]

theorem dedupAux_sublist (fs : List FontFace) : ∀ seen,
    List.Sublist (dedupAux seen fs) fs := by
  induction fs with
  | nil => intro seen; simp [dedupAux]
  | cons f fs ih =>
    intro seen
    by_cases h : f.url ∈ seen
    · rw [dedupAux, if_pos h]; exact (ih seen).cons f
    · rw [dedupAux, if_neg h]; exact (ih (f.url :: seen)).cons₂ f

theorem dedupAux_fresh (fs : List FontFace) : ∀ seen,
    ((dedupAux seen fs).map FontFace.url).Nodup ∧
    ∀ f ∈ dedupAux seen fs, f.url ∉ seen := by
  induction fs with
  | nil => intro seen; simp [dedupAux]
  | cons f fs ih =>
    intro seen
    by_cases h : f.url ∈ seen
    · rw [dedupAux, if_pos h]; exact ih seen
    · rw [dedupAux, if_neg h]
      obtain ⟨hnd, hmem⟩ := ih (f.url :: seen)
      refine ⟨?_, ?_⟩
      · simp only [List.map_cons, List.nodup_cons]
        constructor
        · intro hc
          obtain ⟨g, hg, hgu⟩ := List.mem_map.1 hc
          exact (hmem g hg) (by simp [hgu])
        · exact hnd
      · intro g hg
        rcases List.mem_cons.1 hg with rfl | hg'
        · exact h
        · intro hc; exact (hmem g hg') (List.mem_cons_of_mem _ hc)

theorem dedupAux_id (fs : List FontFace) : ∀ seen,
    ((fs.map FontFace.url).Nodup) → (∀ f ∈ fs, f.url ∉ seen) →
    dedupAux seen fs = fs := by
  induction fs with
  | nil => intro seen _ _; simp [dedupAux]
  | cons f fs ih =>
    intro seen hnd hmem
    have hnd' : (∀ x ∈ fs, ¬x.url = f.url) ∧ (fs.map FontFace.url).Nodup := by
      simpa using hnd
    rw [dedupAux, if_neg (hmem f (List.mem_cons_self f fs))]
    congr 1
    apply ih
    · exact hnd'.2
    · intro g hg hc
      rcases List.mem_cons.1 hc with hc1 | hc2
      · exact hnd'.1 g hg hc1
      · exact (hmem g (List.mem_cons_of_mem _ hg)) hc2

/-! ## Claim theorems -/

/-- C6: deduplication is a stable filter: it equals the recursive
"keep the head, drop every later entry with the same url (whatever its
family / weight / style)" specification, and its output is a sublist of the
input (relative order of kept entries preserved). -/
theorem claim_C6_dedup_stable_filter (fonts : List FontFace) :
    deduplicate_fonts fonts = keepFirstByUrl fonts ∧
    List.Sublist (deduplicate_fonts fonts) fonts := by
  constructor
  · rw [deduplicate_fonts, dedupAux_eq]
    congr 1
    rw [List.filter_eq_self]
    intro a _
    simp
  · exact dedupAux_sublist fonts []

/-- C9: deduplication is idempotent, because one application already leaves
pairwise-distinct urls. -/
theorem claim_C9_dedup_idempotent (fonts : List FontFace) :
    deduplicate_fonts (deduplicate_fonts fonts) = deduplicate_fonts fonts := by
  apply dedupAux_id
  · exact (dedupAux_fresh fonts []).1
  · intro f _
    simp

/-- C2: whenever the structured CSS parse fails, the stylesheet scan returns
exactly the regex fallback's result on the same text (no partial structured
results survive, and no error is propagated — the function is total). -/
theorem claim_C2_fallback_exact (css_text base_url : String) :
    parse_css_for_fonts (Except.error ()) css_text base_url =
      parse_css_with_regex css_text base_url := rfl

/-- C3: classification lower-cases the family and tests the three ordered
pattern sets with strict precedence monospace, then sans-serif, then serif,
returning `unknown` when none match; in particular a family matching any
monospace pattern (such as "Fira Code") is monospace regardless of the other
sets. -/
theorem claim_C3_classifier_precedence :
    (∀ family : String,
      MONO_PATTERNS.any (fun p => reSearch p (lowerS family.data)) = true →
      classify_font family = FontCategory.monospace) ∧
    (∀ family : String,
      MONO_PATTERNS.any (fun p => reSearch p (lowerS family.data)) = false →
      SANS_PATTERNS.any (fun p => reSearch p (lowerS family.data)) = true →
      classify_font family = FontCategory.sansSerif) ∧
    (∀ family : String,
      MONO_PATTERNS.any (fun p => reSearch p (lowerS family.data)) = false →
      SANS_PATTERNS.any (fun p => reSearch p (lowerS family.data)) = false →
      SERIF_PATTERNS.any (fun p => reSearch p (lowerS family.data)) = true →
      classify_font family = FontCategory.serif) ∧
    (∀ family : String,
      MONO_PATTERNS.any (fun p => reSearch p (lowerS family.data)) = false →
      SANS_PATTERNS.any (fun p => reSearch p (lowerS family.data)) = false →
      SERIF_PATTERNS.any (fun p => reSearch p (lowerS family.data)) = false →
      classify_font family = FontCategory.unknown) ∧
    classify_font "Fira Code" = FontCategory.monospace := by
  refine ⟨?_, ?_, ?_, ?_, by decide⟩
  · intro family h; simp [classify_font, h]
  · intro family h1 h2; simp [classify_font, h1, h2]
  · intro family h1 h2 h3; simp [classify_font, h1, h2, h3]
  · intro family h1 h2 h3; simp [classify_font, h1, h2, h3]

/-- Witness for C3 at a concrete input: "JetBrains Mono" matches a monospace
pattern and is classified monospace via the theorem's first conjunct. -/
theorem claim_C3_witness :
    classify_font "JetBrains Mono" = FontCategory.monospace :=
  claim_C3_classifier_precedence.1 "JetBrains Mono" (by decide)

/-- The round-trip CSS text of C4. -/
def roundTripCss : String :=
  "@font-face\x7bfont-family:'MyFont';src:url('a.ttf') format('truetype'),url('a.woff2') format('woff2');\x7d"

/-- Modelled from the spec: the structured CSS-parsing collaborator
("given CSS text, either return an iterable of rule objects exposing
rule-type and a property-name→value mapping for font-face rules, or raise")
succeeds on the well-formed round-trip text and returns its single
font-face rule with the two declared properties as written. -/
def roundTripRules : Except Unit (List CssRule) :=
  Except.ok [CssRule.fontFace
    [("font-family", "'MyFont'"),
     ("src", "url('a.ttf') format('truetype'),url('a.woff2') format('woff2')")]]

/-- C4: scanning the round-trip CSS against base URL
`https://x.test/css/s.css` yields exactly one FontFace: the woff2 candidate
wins, its URL resolves against the stylesheet URL, and "MyFont" classifies
as unknown. -/
theorem claim_C4_round_trip :
    parse_css_for_fonts roundTripRules roundTripCss "https://x.test/css/s.css" =
      [{ family := "MyFont", url := "https://x.test/css/a.woff2",
         weight := "400", style := "normal", format := some "woff2",
         category := FontCategory.unknown }] := by decide

/-- C7: the file written for the font at zero-based position `i` of the
final list is named
`\x7bsanitized-family\x7d-\x7bsanitized-weight\x7d-\x7bstyle\x7d-\x7btwo-digit-index\x7d\x7bext\x7d`:
the family sanitized character-wise over `[A-Za-z0-9_-]`, whitespace runs in
the weight collapsed to `_`, the index zero-padded to two digits, and the
extension taken from the resolved URL's path suffix, defaulting to `.woff2`
when it has none. -/
theorem claim_C7_download_filename (fonts : List FontFace) (i : Nat)
    (h : i < (downloadFilenames fonts).length) (hf : i < fonts.length) :
    (downloadFilenames fonts)[i] =
      String.mk
        (fonts[i].family.data.map (fun c => if isWordChar c || c = '-' then c else '_') ++
         '-' :: (sanitizeWeight fonts[i].weight.data ++
         '-' :: (fonts[i].style.data ++
         '-' :: (pad2 i ++
           (if suffixOf (lastSegOf ((lastSegOf (pathOf fonts[i].url.data)).takeWhile
                (fun c => c ≠ '?'))) = []
            then ".woff2".data
            else suffixOf (lastSegOf ((lastSegOf (pathOf fonts[i].url.data)).takeWhile
                (fun c => c ≠ '?')))))))) := by
  simp only [downloadFilenames, List.getElem_map, List.getElem_enum]
  rfl

/-- Witness for C7 at a concrete one-font list and index 0. -/
theorem claim_C7_witness :
    (downloadFilenames
      [{ family := "My Font!", url := "https://x.test/css/a.woff2?v=3",
         weight := "400 700", style := "italic" }]).head? =
      some "My_Font_-400_700-italic-00.woff2" := by
  rw [show (downloadFilenames
      [{ family := "My Font!", url := "https://x.test/css/a.woff2?v=3",
         weight := "400 700", style := "italic" }] : List String) =
      [(downloadFilenames
      [{ family := "My Font!", url := "https://x.test/css/a.woff2?v=3",
         weight := "400 700", style := "italic" }])[0]] from rfl]
  rw [claim_C7_download_filename _ 0 (by decide) (by decide)]
  decide

/-! ### Source-selection lemmas (for C1) -/

theorem insertCand_ne_nil (c : Cand) (l : List Cand) : insertCand c l ≠ [] := by
  cases l with
  | nil => simp [insertCand]
  | cons d ds =>
    rw [insertCand]
    by_cases h : c.2.2 ≤ d.2.2 <;> simp [h]

theorem sortCands_eq_nil {cs : List Cand} (h : sortCands cs = []) : cs = [] := by
  cases cs with
  | nil => rfl
  | cons c cs => exact absurd h (insertCand_ne_nil c (sortCands cs))

/-- The head of the stable priority sort is the first element attaining the
minimal priority: everything before it in the original list is strictly
greater, everything after it is greater or equal. -/
theorem sortCands_head_first_min : ∀ (cs : List Cand) (c : Cand),
    (sortCands cs).head? = some c →
    ∃ l r, cs = l ++ c :: r ∧ (∀ d ∈ l, c.2.2 < d.2.2) ∧ (∀ d ∈ r, c.2.2 ≤ d.2.2) := by
  intro cs
  induction cs with
  | nil => intro c hc; simp [sortCands] at hc
  | cons a cs ih =>
    intro c hc
    rw [sortCands] at hc
    cases h0 : sortCands cs with
    | nil =>
      have hcs : cs = [] := sortCands_eq_nil h0
      subst hcs
      rw [h0] at hc
      simp [insertCand] at hc
      exact ⟨[], [], by simp [hc], by simp, by simp⟩
    | cons d ds =>
      rw [h0] at hc
      obtain ⟨l', r', hsplit, hlt, hle⟩ := ih d (by rw [h0]; rfl)
      have hdmin : ∀ e ∈ cs, d.2.2 ≤ e.2.2 := by
        intro e he
        rw [hsplit] at he
        rcases List.mem_append.1 he with h1 | h2
        · exact Nat.le_of_lt (hlt e h1)
        · rcases List.mem_cons.1 h2 with rfl | h3
          · exact Nat.le_refl _
          · exact hle e h3
      rw [insertCand] at hc
      by_cases hcmp : a.2.2 ≤ d.2.2
      · rw [if_pos hcmp] at hc
        simp only [List.head?_cons, Option.some.injEq] at hc
        subst hc
        refine ⟨[], cs, by simp, by simp, ?_⟩
        intro e he
        exact Nat.le_trans hcmp (hdmin e he)
      · rw [if_neg hcmp] at hc
        simp only [List.head?_cons, Option.some.injEq] at hc
        subst hc
        refine ⟨a :: l', r', by simp [hsplit], ?_, hle⟩
        intro e he
        rcases List.mem_cons.1 he with rfl | h4
        · exact Nat.lt_of_not_le hcmp
        · exact hlt e h4

/-- Corollary: the selected candidate is a member of the list and its
priority is minimal. -/
theorem sortCands_head_min {cs : List Cand} {c : Cand}
    (hc : (sortCands cs).head? = some c) :
    c ∈ cs ∧ ∀ d ∈ cs, c.2.2 ≤ d.2.2 := by
  obtain ⟨l, r, hsplit, hlt, hle⟩ := sortCands_head_first_min cs c hc
  constructor
  · rw [hsplit]; exact List.mem_append.2 (Or.inr (List.mem_cons_self c r))
  · intro d hd
    rw [hsplit] at hd
    rcases List.mem_append.1 hd with h1 | h2
    · exact Nat.le_of_lt (hlt d h1)
    · rcases List.mem_cons.1 h2 with rfl | h3
      · exact Nat.le_refl _
      · exact hle d h3

/-- The priority of the head of the stable sort is invariant under
permutation of the candidate list. -/
theorem sortCands_head_rank_perm {cs cs' : List Cand} (hp : cs.Perm cs') :
    ((sortCands cs).head?).map (fun c => c.2.2) =
    ((sortCands cs').head?).map (fun c => c.2.2) := by
  cases hc : (sortCands cs).head? with
  | none =>
    have h1 : cs = [] := sortCands_eq_nil (List.head?_eq_none_iff.1 hc)
    have h2 : cs' = [] := (List.Perm.nil_eq (h1 ▸ hp)).symm
    subst h2
    simp [sortCands]
  | some c =>
    cases hc' : (sortCands cs').head? with
    | none =>
      have h1 : cs' = [] := sortCands_eq_nil (List.head?_eq_none_iff.1 hc')
      subst h1
      have : cs = [] := (List.Perm.nil_eq hp.symm).symm
      subst this
      simp [sortCands] at hc
    | some c' =>
      obtain ⟨hmem, hmin⟩ := sortCands_head_min hc
      obtain ⟨hmem', hmin'⟩ := sortCands_head_min hc'
      have h1 : c.2.2 ≤ c'.2.2 := hmin c' (hp.mem_iff.2 hmem')
      have h2 : c'.2.2 ≤ c.2.2 := hmin' c (hp.mem_iff.1 hmem)
      simp [Nat.le_antisymm h1 h2]

/-- C1 counterexample: the claim's clause "the chosen entry is independent
of the declaration order of the fallbacks" is false: two fallbacks that both
rank 0 (two `.woff2` URLs) produce different chosen entries when their
declaration order is swapped, even though the candidate lists are
permutations of each other. -/
theorem claim_C1_counterexample :
    (candidatesOf "url(a.woff2), url(b.woff2)" "https://x.test/css/s.css").Perm
      (candidatesOf "url(b.woff2), url(a.woff2)" "https://x.test/css/s.css") ∧
    select_best_source "url(a.woff2), url(b.woff2)" "https://x.test/css/s.css" =
      some ("https://x.test/css/a.woff2", none, 0) ∧
    select_best_source "url(b.woff2), url(a.woff2)" "https://x.test/css/s.css" =
      some ("https://x.test/css/b.woff2", none, 0) ∧
    select_best_source "url(a.woff2), url(b.woff2)" "https://x.test/css/s.css" ≠
      select_best_source "url(b.woff2), url(a.woff2)" "https://x.test/css/s.css" := by
  refine ⟨?_, by decide, by decide, by decide⟩
  rw [show candidatesOf "url(a.woff2), url(b.woff2)" "https://x.test/css/s.css" =
        [("https://x.test/css/a.woff2", none, 0), ("https://x.test/css/b.woff2", none, 0)]
      from by decide,
      show candidatesOf "url(b.woff2), url(a.woff2)" "https://x.test/css/s.css" =
        [("https://x.test/css/b.woff2", none, 0), ("https://x.test/css/a.woff2", none, 0)]
      from by decide]
  exact List.Perm.swap _ _ _

/-- C1 (amended): source selection returns the first candidate attaining the
minimal format-priority rank (everything declared before it ranks strictly
higher, everything after ranks no lower — the stable-sort tie-break), where
a declared format is ranked woff2:0, woff:1, truetype:2, opentype:3,
embedded-opentype:4, other:5 and an undeclared format is ranked by the
resolved URL's lower-cased file extension .woff2:0, .woff:1, .ttf:2, .otf:3,
.eot:4, other:5; selection succeeds whenever any candidate survives, and the
chosen entry's rank (though not necessarily the entry itself) is independent
of the declaration order of the fallbacks. -/
theorem claim_C1_source_selection :
    (∀ src_value base_url c, select_best_source src_value base_url = some c →
      ∃ l r, candidatesOf src_value base_url = l ++ c :: r ∧
        (∀ d ∈ l, c.2.2 < d.2.2) ∧ (∀ d ∈ r, c.2.2 ≤ d.2.2)) ∧
    (∀ src_value base_url, candidatesOf src_value base_url ≠ [] →
      (select_best_source src_value base_url).isSome) ∧
    (∀ u, rankOf u (some "woff2") = 0 ∧ rankOf u (some "woff") = 1 ∧
      rankOf u (some "truetype") = 2 ∧ rankOf u (some "opentype") = 3 ∧
      rankOf u (some "embedded-opentype") = 4) ∧
    (∀ u f, f ∉ (["woff2", "woff", "truetype", "opentype", "embedded-opentype"] :
        List String) → rankOf u (some f) = 5) ∧
    (∀ u, rankOf u none = extPriority (extOf u)) ∧
    (extPriority ".woff2".data = 0 ∧ extPriority ".woff".data = 1 ∧
     extPriority ".ttf".data = 2 ∧ extPriority ".otf".data = 3 ∧
     extPriority ".eot".data = 4) ∧
    (∀ e, e ∉ [".woff2".data, ".woff".data, ".ttf".data, ".otf".data, ".eot".data] →
      extPriority e = 5) ∧
    (∀ s1 s2 base_url, (candidatesOf s1 base_url).Perm (candidatesOf s2 base_url) →
      (select_best_source s1 base_url).map (fun c => c.2.2) =
      (select_best_source s2 base_url).map (fun c => c.2.2)) := by
  refine ⟨?_, ?_, by intro u; simp [rankOf, formatPriority], ?_, by intro u; rfl,
          by refine ⟨by decide, by decide, by decide, by decide, by decide⟩, ?_, ?_⟩
  · intro src_value base_url c hc
    exact sortCands_head_first_min _ c hc
  · intro src_value base_url hne
    rw [select_best_source]
    cases h : sortCands (candidatesOf src_value base_url) with
    | nil => exact absurd (sortCands_eq_nil h) hne
    | cons d ds => simp
  · intro u f hf
    simp only [List.mem_cons, not_or] at hf
    obtain ⟨h1, h2, h3, h4, h5, _⟩ := hf
    simp [rankOf, formatPriority, h1, h2, h3, h4, h5]
  · intro e he
    simp only [List.mem_cons, not_or] at he
    obtain ⟨h1, h2, h3, h4, h5, _⟩ := he
    simp [extPriority, h1, h2, h3, h4, h5]
  · intro s1 s2 base_url hp
    exact sortCands_head_rank_perm hp

/-- Witness for C1 at a concrete input: in
`url(x.ttf) format('truetype'), url(y.woff2)` the undeclared-format
`.woff2` candidate ranks 0 and is selected, with the truetype candidate
before it ranking strictly higher. -/
theorem claim_C1_witness :
    ∃ l r, candidatesOf "url(x.ttf) format('truetype'), url(y.woff2)"
        "https://x.test/css/s.css" =
        l ++ ("https://x.test/css/y.woff2", none, 0) :: r ∧
      (∀ d ∈ l, (("https://x.test/css/y.woff2" : String), (none : Option String),
        (0 : Nat)).2.2 < d.2.2) ∧
      (∀ d ∈ r, (("https://x.test/css/y.woff2" : String), (none : Option String),
        (0 : Nat)).2.2 ≤ d.2.2) :=
  claim_C1_source_selection.1 "url(x.ttf) format('truetype'), url(y.woff2)"
    "https://x.test/css/s.css" _ (by decide)


/-! ### Data-URI invariant lemmas (for C5) -/

theorem schemeSplit_http (r : List Char) :
    schemeSplit ('h' :: 't' :: 't' :: 'p' :: ':' :: r) = some (['h', 't', 't', 'p'], r) := rfl

theorem schemeSplit_https (r : List Char) :
    schemeSplit ('h' :: 't' :: 't' :: 'p' :: 's' :: ':' :: r) =
      some (['h', 't', 't', 'p', 's'], r) := rfl

theorem not_data_of_head_h (t : List Char) :
    "data:".data.isPrefixOf ('h' :: t) = false := rfl

theorem urljoin_not_data {base url : String}
    (hb : "http://".data.isPrefixOf base.data = true ∨
          "https://".data.isPrefixOf base.data = true)
    (hu : "data:".data.isPrefixOf url.data = false) :
    "data:".data.isPrefixOf (urljoin base url).data = false := by
  by_cases h1 : url.data = []
  · have hjoin : urljoin base url = base := by simp [urljoin, h1]
    rw [hjoin]
    rcases hb with hb | hb <;>
    · obtain ⟨t, ht⟩ := List.isPrefixOf_iff_prefix.1 hb
      rw [← ht]
      exact rfl
  · by_cases h2 : (schemeSplit url.data).isSome
    · have hjoin : urljoin base url = url := by simp [urljoin, h1, h2]
      rw [hjoin]; exact hu
    · rcases hb with hb | hb
      · obtain ⟨t, ht⟩ := List.isPrefixOf_iff_prefix.1 hb
        have hss : schemeSplit base.data = some (['h', 't', 't', 'p'], '/' :: '/' :: t) := by
          rw [← ht]; exact schemeSplit_http ('/' :: '/' :: t)
        by_cases h3 : "//".data.isPrefixOf url.data
        · have : urljoin base url = String.mk (['h', 't', 't', 'p'] ++ ':' :: url.data) := by
            simp [urljoin, h1, h2, hss, h3]
          rw [this]; exact rfl
        · by_cases h4 : "/".data.isPrefixOf url.data
          · have : urljoin base url = String.mk (['h', 't', 't', 'p'] ++ ':' :: '/' :: '/' ::
                (((('/' :: '/' :: t).drop 2).takeWhile
                    (fun c => !(c = '/' || c = '?' || c = '#'))) ++ url.data)) := by
              simp [urljoin, h1, h2, hss, h3, h4]
            rw [this]; exact rfl
          · have : urljoin base url = String.mk (['h', 't', 't', 'p'] ++ ':' :: '/' :: '/' ::
                ((t.takeWhile (fun c => !(c = '/' || c = '?' || c = '#'))) ++
                 dirOf ((t.drop ((t.takeWhile (fun c => !(c = '/' || c = '?' || c = '#'))).length)).takeWhile
                   (fun c => !(c = '?' || c = '#'))) ++ url.data)) := by
              simp [urljoin, h1, h2, hss, h3, h4]
            rw [this]; exact rfl
      · obtain ⟨t, ht⟩ := List.isPrefixOf_iff_prefix.1 hb
        have hss : schemeSplit base.data =
            some (['h', 't', 't', 'p', 's'], '/' :: '/' :: t) := by
          rw [← ht]; exact schemeSplit_https ('/' :: '/' :: t)
        by_cases h3 : "//".data.isPrefixOf url.data
        · have : urljoin base url = String.mk (['h', 't', 't', 'p', 's'] ++ ':' :: url.data) := by
            simp [urljoin, h1, h2, hss, h3]
          rw [this]; exact rfl
        · by_cases h4 : "/".data.isPrefixOf url.data
          · have : urljoin base url = String.mk (['h', 't', 't', 'p', 's'] ++ ':' :: '/' :: '/' ::
                ((t.takeWhile (fun c => !(c = '/' || c = '?' || c = '#'))) ++ url.data)) := by
              simp [urljoin, h1, h2, hss, h3, h4]
            rw [this]; exact rfl
          · have : urljoin base url = String.mk (['h', 't', 't', 'p', 's'] ++ ':' :: '/' :: '/' ::
                ((t.takeWhile (fun c => !(c = '/' || c = '?' || c = '#'))) ++
                 dirOf ((t.drop ((t.takeWhile (fun c => !(c = '/' || c = '?' || c = '#'))).length)).takeWhile
                   (fun c => !(c = '?' || c = '#'))) ++ url.data)) := by
              simp [urljoin, h1, h2, hss, h3, h4]
            rw [this]; exact rfl

theorem extract_font_url_eq_some {s b u : String} {f : Option String}
    (h : extract_font_url s b = some (u, f)) :
    ∃ g, reFind matchUrlAt s.data = some g ∧
      "data:".data.isPrefixOf g = false ∧ u = urljoin b (String.mk g) := by
  rw [extract_font_url] at h
  cases hg : reFind matchUrlAt s.data with
  | none => rw [hg] at h; simp at h
  | some g =>
    rw [hg] at h
    by_cases hd : "data:".data.isPrefixOf g = true
    · simp [hd] at h
    · simp only [hd, Bool.false_eq_true, if_false, Option.some.injEq, Prod.mk.injEq] at h
      exact ⟨g, rfl, eq_false_of_ne_true hd, h.1.symm⟩

theorem mem_candidatesOf {src base : String} {c : Cand} (h : c ∈ candidatesOf src base) :
    ∃ frag : String, extract_font_url frag base = some (c.1, c.2.1) := by
  rw [candidatesOf] at h
  obtain ⟨part, _, hc⟩ := List.mem_filterMap.1 h
  cases he : extract_font_url (String.mk (pyStrip part)) base with
  | none => rw [he] at hc; simp at hc
  | some uf =>
    obtain ⟨u, f⟩ := uf
    rw [he] at hc
    simp only [Option.some.injEq] at hc
    refine ⟨String.mk (pyStrip part), ?_⟩
    rw [he, ← hc]

theorem mem_parse_font_face_rule {props : List (String × String)} {base : String}
    {f : FontFace} (h : f ∈ parse_font_face_rule props base) :
    ∃ frag : String, extract_font_url frag base = some (f.url, f.format) := by
  simp only [parse_font_face_rule] at h
  cases hfam : (props.foldl applyProp ⟨none, "400", "normal", none⟩).family with
  | none => rw [hfam] at h; simp at h
  | some family =>
    cases hsrc : (props.foldl applyProp ⟨none, "400", "normal", none⟩).src with
    | none => rw [hfam, hsrc] at h; simp at h
    | some src_value =>
      rw [hfam, hsrc] at h
      by_cases hemp : (family = "" || src_value = "") = true
      · simp [hemp] at h
      · simp only [hemp, Bool.false_eq_true, if_false] at h
        cases hsel : select_best_source src_value base with
        | none => rw [hsel] at h; simp at h
        | some c =>
          obtain ⟨u, fm, pr⟩ := c
          rw [hsel] at h
          simp only [List.mem_singleton] at h
          have hmem : (u, fm, pr) ∈ candidatesOf src_value base :=
            (sortCands_head_min hsel).1
          obtain ⟨frag, hfrag⟩ := mem_candidatesOf hmem
          exact ⟨frag, by rw [hfrag, h]⟩

theorem processBlock_url {block : List Char} {base : String} {f : FontFace}
    (h : processBlock block base = some f) :
    ∃ frag : String, extract_font_url frag base = some (f.url, f.format) := by
  rw [processBlock] at h
  cases h1 : reFind matchFamilyAt block with
  | none => rw [h1] at h; simp at h
  | some famC =>
    cases h2 : reFind matchSrcAt block with
    | none => rw [h1, h2] at h; simp at h
    | some srcC =>
      rw [h1, h2] at h
      cases he : extract_font_url (String.mk (pyStrip srcC)) base with
      | none => simp only [he] at h; simp at h
      | some uf =>
        obtain ⟨u, fm⟩ := uf
        simp only [he, Option.some.injEq] at h
        exact ⟨String.mk (pyStrip srcC), by rw [he, ← h]⟩

theorem mem_parse_css_with_regex {css base : String} {f : FontFace}
    (h : f ∈ parse_css_with_regex css base) :
    ∃ frag : String, extract_font_url frag base = some (f.url, f.format) := by
  rw [parse_css_with_regex] at h
  obtain ⟨b, _, hb⟩ := List.mem_filterMap.1 h
  exact processBlock_url hb

theorem mem_parse_css_for_fonts {structured : Except Unit (List CssRule)}
    {css base : String} {f : FontFace} (h : f ∈ parse_css_for_fonts structured css base) :
    ∃ frag : String, extract_font_url frag base = some (f.url, f.format) := by
  cases structured with
  | error e => exact mem_parse_css_with_regex h
  | ok rules =>
    rw [parse_css_for_fonts] at h
    obtain ⟨l, hl, hf⟩ := List.mem_flatten.1 h
    obtain ⟨r, _, hr⟩ := List.mem_map.1 hl
    cases r with
    | other => rw [← hr] at hf; simp at hf
    | fontFace props =>
      rw [← hr] at hf
      exact mem_parse_font_face_rule hf

theorem claim_C5_no_data_uri :
    (∀ src_value base_url : String, ∀ g, reFind matchUrlAt src_value.data = some g →
      "data:".data.isPrefixOf g = true → extract_font_url src_value base_url = none) ∧
    (∀ base_url : String,
      extract_font_url "url(data:font/woff2;base64,AAAA) format('woff2')" base_url = none) ∧
    (∀ (structured : Except Unit (List CssRule)) (css_text base_url : String) (f : FontFace),
      ("http://".data.isPrefixOf base_url.data = true ∨
       "https://".data.isPrefixOf base_url.data = true) →
      f ∈ parse_css_for_fonts structured css_text base_url →
      "data:".data.isPrefixOf f.url.data = false) := by
  refine ⟨?_, ?_, ?_⟩
  · intro s b g hg hd
    rw [extract_font_url, hg]
    simp [hd]
  · intro b; rfl
  · intro st css b f hb hf
    obtain ⟨frag, hfrag⟩ := mem_parse_css_for_fonts hf
    obtain ⟨g, _, hgd, hu⟩ := extract_font_url_eq_some hfrag
    rw [hu]
    exact urljoin_not_data hb hgd

theorem claim_C5_witness :
    "data:".data.isPrefixOf ("https://x.test/g.woff" : String).data = false :=
  claim_C5_no_data_uri.2.2 (Except.error ())
    "@font-face\x7bfont-family:A;src:url(g.woff);\x7d" "https://x.test/s.css"
    { family := "A", url := "https://x.test/g.woff", weight := "400", style := "normal",
      format := none, category := FontCategory.unknown }
    (Or.inr (by decide)) (by decide)

/-! ### Regex-fallback block scanning lemmas (for C8 and C10) -/

theorem oOr_none (b : Option α) : oOr none b = b := rfl

theorem toNat_char_ofNat_of_lt {n : Nat} (hn : n < 55296) : (Char.ofNat n).toNat = n := by
  rw [Char.ofNat]
  rw [dif_pos (Or.inl hn)]
  rfl

theorem char_toLower_eq_at {c : Char} (h : c.toLower = '@') : c = '@' := by
  simp only [Char.toLower] at h
  by_cases hc : c.toNat ≥ 65 ∧ c.toNat ≤ 90
  · rw [if_pos hc] at h
    have h2 := congrArg Char.toNat h
    rw [toNat_char_ofNat_of_lt (by omega)] at h2
    rw [show ('@' : Char).toNat = 64 from rfl] at h2
    omega
  · rw [if_neg hc] at h
    exact h

theorem matchBlockAt_nil : matchBlockAt [] = none := rfl

theorem matchBlockAt_cons_ne {c : Char} (t : List Char) (h : c ≠ '@') :
    matchBlockAt (c :: t) = none := by
  have hcond : ¬(('@' : Char).toLower = c.toLower) := by
    rw [show ('@' : Char).toLower = '@' from rfl]
    intro hh
    exact h (char_toLower_eq_at hh.symm)
  rw [matchBlockAt, show ("@font-face".data : List Char) =
      '@' :: "font-face".data from rfl, mLitCI, if_neg hcond]

theorem reFind_append (m : List Char → Option α) (pre s : List Char)
    (hm : ∀ c ∈ pre, ∀ t, m (c :: t) = none) :
    reFind m (pre ++ s) = reFind m s := by
  induction pre with
  | nil => rfl
  | cons c cs ih =>
    rw [List.cons_append, reFind, hm c (List.mem_cons_self c cs) (cs ++ s), oOr_none]
    exact ih (fun c' hc' t => hm c' (List.mem_cons_of_mem c hc') t)

theorem string_data_append (a b : String) : (a ++ b).data = a.data ++ b.data := rfl

/-- The malformed-CSS scenario block of C8. -/
def georgiaBlock : String :=
  "@font-face\x7bfont-family:\"Georgia Pro\";src:url(g.woff);\x7d"

/-- The FontFace the fallback path yields for `georgiaBlock`. -/
def georgiaFace (base_url : String) : FontFace :=
  { family := "Georgia Pro", url := urljoin base_url "g.woff", weight := "400",
    style := "normal", format := none, category := FontCategory.serif }

theorem claim_C8_georgia_fallback (pre post base_url : String)
    (hpre : ∀ c ∈ pre.data, c ≠ '@') :
    georgiaFace base_url ∈
      parse_css_for_fonts (Except.error ()) (pre ++ georgiaBlock ++ post) base_url := by
  rw [show parse_css_for_fonts (Except.error ()) (pre ++ georgiaBlock ++ post) base_url =
      parse_css_with_regex (pre ++ georgiaBlock ++ post) base_url from rfl]
  rw [parse_css_with_regex]
  have hdata : (pre ++ georgiaBlock ++ post).data =
      pre.data ++ (georgiaBlock.data ++ post.data) := by
    rw [string_data_append, string_data_append, List.append_assoc]
  rw [hdata]
  obtain ⟨n, hn⟩ : ∃ n, (pre.data ++ (georgiaBlock.data ++ post.data)).length = n + 1 := by
    refine ⟨(pre.data ++ (georgiaBlock.data ++ post.data)).length - 1, ?_⟩
    have : georgiaBlock.data.length = 54 := rfl
    simp [List.length_append, this]
    omega
  rw [hn, findFaceBlocks]
  rw [reFind_append matchBlockAt pre.data (georgiaBlock.data ++ post.data)
      (fun c hc t => matchBlockAt_cons_ne t (hpre c hc))]
  rw [show reFind matchBlockAt (georgiaBlock.data ++ post.data) =
      some ("font-family:\"Georgia Pro\";src:url(g.woff);".data, post.data) from rfl]
  rw [List.filterMap_cons]
  rw [show processBlock "font-family:\"Georgia Pro\";src:url(g.woff);".data base_url =
      some (georgiaFace base_url) from rfl]
  exact List.mem_cons_self _ _

theorem claim_C8_witness :
    georgiaFace "https://x.test/a/b.css" ∈
      parse_css_for_fonts (Except.error ())
        (".broken \x7b color: rgb(" ++ georgiaBlock ++ "") "https://x.test/a/b.css" :=
  claim_C8_georgia_fallback ".broken \x7b color: rgb(" "" "https://x.test/a/b.css"
    (by decide)

/-! ### Semicolon-termination lemmas (for C10) -/

theorem mLit_eq_some {l s : List Char} {k : List Char → Option α} {r : α}
    (h : mLit l s k = some r) : ∃ s', s = l ++ s' ∧ k s' = some r := by
  induction l generalizing s with
  | nil => exact ⟨s, rfl, h⟩
  | cons a l' ih =>
    cases s with
    | nil => simp [mLit] at h
    | cons b s' =>
      rw [mLit] at h
      by_cases hab : a = b
      · rw [if_pos hab] at h
        obtain ⟨s'', hs, hk⟩ := ih h
        exact ⟨s'', by rw [hs, ← hab]; rfl, hk⟩
      · rw [if_neg hab] at h
        exact absurd h (by simp)

theorem mStarCls_eq_some {p : Char → Bool} {s : List Char} {k : List Char → Option α}
    {r : α} (h : mStarCls p s k = some r) : ∃ s', s' <:+ s ∧ k s' = some r := by
  induction s with
  | nil => exact ⟨[], List.suffix_refl [], h⟩
  | cons c cs ih =>
    rw [mStarCls] at h
    by_cases hc : p c = true
    · rw [if_pos hc] at h
      rcases oOr_eq_some.1 h with h1 | ⟨_, h2⟩
      · obtain ⟨s', hs, hk⟩ := ih h1
        exact ⟨s', hs.trans (List.suffix_cons c cs), hk⟩
      · exact ⟨c :: cs, List.suffix_refl _, h2⟩
    · rw [if_neg hc] at h
      exact ⟨c :: cs, List.suffix_refl _, h⟩

theorem mOptCls_eq_some {p : Char → Bool} {s : List Char} {k : List Char → Option α}
    {r : α} (h : mOptCls p s k = some r) : ∃ s', s' <:+ s ∧ k s' = some r := by
  cases s with
  | nil => exact ⟨[], List.suffix_refl [], h⟩
  | cons c cs =>
    rw [mOptCls] at h
    by_cases hc : p c = true
    · rw [if_pos hc] at h
      rcases oOr_eq_some.1 h with h1 | ⟨_, h2⟩
      · exact ⟨cs, List.suffix_cons c cs, h1⟩
      · exact ⟨c :: cs, List.suffix_refl _, h2⟩
    · rw [if_neg hc] at h
      exact ⟨c :: cs, List.suffix_refl _, h⟩

theorem starCap_eq_some {p : Char → Bool} {s : List Char}
    {k : List Char → List Char → Option α} {r : α} (h : starCap p s k = some r) :
    ∃ a b, s = a ++ b ∧ k a b = some r := by
  induction s generalizing k with
  | nil => exact ⟨[], [], rfl, h⟩
  | cons c cs ih =>
    rw [starCap] at h
    by_cases hc : p c = true
    · rw [if_pos hc] at h
      rcases oOr_eq_some.1 h with h1 | ⟨_, h2⟩
      · obtain ⟨a, b, hs, hk⟩ := ih h1
        exact ⟨c :: a, b, by rw [hs]; rfl, hk⟩
      · exact ⟨[], c :: cs, rfl, h2⟩
    · rw [if_neg hc] at h
      exact ⟨[], c :: cs, rfl, h⟩

theorem mPlusCap_eq_some {p : Char → Bool} {s : List Char}
    {k : List Char → List Char → Option α} {r : α} (h : mPlusCap p s k = some r) :
    ∃ a b, s = a ++ b ∧ a ≠ [] ∧ k a b = some r := by
  cases s with
  | nil => simp [mPlusCap] at h
  | cons c cs =>
    rw [mPlusCap] at h
    by_cases hc : p c = true
    · rw [if_pos hc] at h
      obtain ⟨a, b, hs, hk⟩ := starCap_eq_some h
      exact ⟨c :: a, b, by rw [hs]; rfl, by simp, hk⟩
    · rw [if_neg hc] at h
      simp at h

theorem reFind_eq_none {m : List Char → Option α} {s : List Char}
    (hm : ∀ t, t <:+ s → m t = none) : reFind m s = none := by
  induction s with
  | nil => exact hm [] (List.suffix_refl [])
  | cons c cs ih =>
    rw [reFind, hm (c :: cs) (List.suffix_refl _), oOr_none]
    exact ih (fun t ht => hm t (ht.trans (List.suffix_cons c cs)))

theorem suffix_append_cases {t X Y : List Char} (h : t <:+ X ++ Y) :
    t <:+ Y ∨ ∃ w, w <:+ X ∧ w ≠ [] ∧ t = w ++ Y := by
  induction X with
  | nil => exact Or.inl (by simpa using h)
  | cons x X' ih =>
    obtain ⟨u, hu⟩ := h
    cases u with
    | nil =>
      right
      refine ⟨x :: X', List.suffix_refl _, by simp, ?_⟩
      simpa using hu
    | cons a u' =>
      have hu' : u' ++ t = X' ++ Y := by
        have := congrArg List.tail hu
        simpa using this
      rcases ih ⟨u', hu'⟩ with h1 | ⟨w, hw, hwne, ht⟩
      · exact Or.inl h1
      · exact Or.inr ⟨w, hw.trans (List.suffix_cons x X'), hwne, ht⟩

/-- A successful `src\s*:\s*([^;]+);` match starts with the literal `src`
and contains a semicolon: the value must be semicolon-terminated. -/
theorem matchSrcAt_eq_some {t : List Char} {r : List Char}
    (h : matchSrcAt t = some r) : (∃ z, t = 's' :: 'r' :: 'c' :: z) ∧ ';' ∈ t := by
  rw [matchSrcAt] at h
  obtain ⟨t1, ht1, h⟩ := mLit_eq_some h
  obtain ⟨t2, ht2, h⟩ := mStarCls_eq_some h
  obtain ⟨t3, ht3, h⟩ := mLit_eq_some h
  obtain ⟨t4, ht4, h⟩ := mStarCls_eq_some h
  obtain ⟨a, t5, ht5, _, h⟩ := mPlusCap_eq_some h
  obtain ⟨t6, ht6, _⟩ := mLit_eq_some h
  refine ⟨⟨t1, by rw [ht1]; rfl⟩, ?_⟩
  have h5 : ';' ∈ t5 := by rw [ht6]; exact List.mem_cons_self ';' t6
  have h4 : ';' ∈ t4 := by rw [ht5]; exact List.mem_append_right a h5
  have h3 : ';' ∈ t3 := ht4.subset h4
  have h2 : ';' ∈ t2 := by rw [ht3]; exact List.mem_cons_of_mem ':' h3
  have h1 : ';' ∈ t1 := ht2.subset h2
  rw [ht1]
  exact List.mem_append_right _ h1

/-- A successful fallback `font-family` match likewise starts with its
literal and contains a semicolon. -/
theorem matchFamilyAt_eq_some {t : List Char} {r : List Char}
    (h : matchFamilyAt t = some r) :
    (∃ z, t = "font-family".data ++ z) ∧ ';' ∈ t := by
  rw [matchFamilyAt] at h
  obtain ⟨t1, ht1, h⟩ := mLit_eq_some h
  obtain ⟨t2, ht2, h⟩ := mStarCls_eq_some h
  obtain ⟨t3, ht3, h⟩ := mLit_eq_some h
  obtain ⟨t4, ht4, h⟩ := mStarCls_eq_some h
  obtain ⟨t5, ht5, h⟩ := mOptCls_eq_some h
  obtain ⟨a, t6, ht6, _, h⟩ := mPlusCap_eq_some h
  obtain ⟨t7, ht7, h⟩ := mOptCls_eq_some h
  obtain ⟨t8, ht8, h⟩ := mStarCls_eq_some h
  obtain ⟨t9, ht9, _⟩ := mLit_eq_some h
  refine ⟨⟨t1, ht1⟩, ?_⟩
  have h8 : ';' ∈ t8 := by rw [ht9]; exact List.mem_cons_self ';' t9
  have h7 : ';' ∈ t7 := ht8.subset h8
  have h6 : ';' ∈ t6 := ht7.subset h7
  have h5 : ';' ∈ t5 := by rw [ht6]; exact List.mem_append_right a h6
  have h4 : ';' ∈ t4 := ht5.subset h5
  have h3 : ';' ∈ t3 := ht4.subset h4
  have h2 : ';' ∈ t2 := by rw [ht3]; exact List.mem_cons_of_mem ':' h3
  have h1 : ';' ∈ t1 := ht2.subset h2
  rw [ht1]
  exact List.mem_append_right _ h1

/-- Greedy capturing star over `a ++ c :: b` where all of `a` but not `c`
satisfies the class: the maximal capture `a` is tried first, so a succeeding
continuation there decides the result. -/
theorem starCap_concat {p : Char → Bool} {a : List Char} {c : Char} {b : List Char}
    {k : List Char → List Char → Option α} {r : α}
    (ha : ∀ x ∈ a, p x = true) (hc : p c = false) (hk : k a (c :: b) = some r) :
    starCap p (a ++ c :: b) k = some r := by
  induction a generalizing k with
  | nil =>
    rw [List.nil_append, starCap, if_neg (by simp [hc])]
    exact hk
  | cons x a' ih =>
    rw [List.cons_append, starCap, if_pos (ha x (List.mem_cons_self x a'))]
    rw [ih (fun y hy => ha y (List.mem_cons_of_mem x hy)) hk]
    rfl

theorem mPlusCap_concat {p : Char → Bool} {a : List Char} {c : Char} {b : List Char}
    {k : List Char → List Char → Option α} {r : α}
    (ha : ∀ x ∈ a, p x = true) (hc : p c = false) (hne : a ≠ [])
    (hk : k a (c :: b) = some r) :
    mPlusCap p (a ++ c :: b) k = some r := by
  cases a with
  | nil => exact absurd rfl hne
  | cons x a' =>
    rw [List.cons_append, mPlusCap, if_pos (ha x (List.mem_cons_self x a'))]
    exact starCap_concat (fun y hy => ha y (List.mem_cons_of_mem x hy)) hc hk

theorem findFaceBlocks_nil (fuel : Nat) : findFaceBlocks fuel [] = [] := by
  cases fuel with
  | zero => rfl
  | succ n => rfl

/-- Executable check that `seg` occurs as a contiguous segment of `l`. -/
def containsSeg (seg l : List Char) : Bool :=
  l.tails.any (fun t => seg.isPrefixOf t)

theorem containsSeg_of_eq {seg l u v : List Char} (h : l = u ++ (seg ++ v)) :
    containsSeg seg l = true := by
  rw [containsSeg, List.any_eq_true]
  refine ⟨seg ++ v, (List.mem_tails _ _).2 ⟨u, h.symm⟩, ?_⟩
  exact List.isPrefixOf_iff_prefix.2 ⟨v, rfl⟩

theorem reFind_cons_eq_some {m : List Char → Option α} {c : Char} {cs : List Char}
    {r : α} (h : m (c :: cs) = some r) : reFind m (c :: cs) = some r := by
  rw [reFind, h]
  rfl

/-- On a block interior `A ++ "src:url(" ++ B ++ ")"` whose tail `B` has no
semicolon (and whose prefix `A` nowhere contains `src`), the fallback src
regex finds no match: its value would have to be semicolon-terminated. -/
theorem srcFind_none_minified {A B : List Char}
    (hBsemi : ';' ∉ B)
    (hAnosrc : containsSeg "src".data A = false) :
    reFind matchSrcAt (A ++ ("src:url(".data ++ (B ++ [')']))) = none := by
  apply reFind_eq_none
  intro t ht
  cases h : matchSrcAt t with
  | none => rfl
  | some r =>
    exfalso
    obtain ⟨⟨z, htz⟩, hsemi⟩ := matchSrcAt_eq_some h
    rcases suffix_append_cases ht with h1 | ⟨w, hwA, hwne, htw⟩
    · rcases suffix_append_cases h1 with h2 | ⟨w, hw8, hwne, htw⟩
      · rcases suffix_append_cases h2 with h3 | ⟨w, hwB, hwne, htw⟩
        · have hmem := (List.mem_tails _ _).2 h3
          rw [show ([')'] : List Char).tails = [[')'], []] from rfl] at hmem
          simp only [List.mem_cons, List.not_mem_nil, or_false] at hmem
          rcases hmem with rfl | rfl
          · simp at htz
          · simp at htz
        · rw [htw] at hsemi
          rcases List.mem_append.1 hsemi with h4 | h4
          · exact hBsemi (hwB.subset h4)
          · exact absurd h4 (by decide)
      · have hmem := (List.mem_tails _ _).2 hw8
        rw [show ("src:url(".data).tails =
            ["src:url(".data, "rc:url(".data, "c:url(".data, ":url(".data,
             "url(".data, "rl(".data, "l(".data, "(".data, []] from rfl] at hmem
        simp only [List.mem_cons, List.not_mem_nil, or_false] at hmem
        rcases hmem with rfl | rfl | rfl | rfl | rfl | rfl | rfl | rfl | rfl
        · rw [htw] at hsemi
          rcases List.mem_append.1 hsemi with h4 | h4
          · exact absurd h4 (by decide)
          · rcases List.mem_append.1 h4 with h5 | h5
            · exact hBsemi h5
            · exact absurd h5 (by decide)
        · rw [htw] at htz
          have hhead := congrArg List.head? htz
          rw [show (("rc:url(".data ++ (B ++ [')'])) : List Char).head? = some 'r'
              from rfl] at hhead
          simp at hhead
        · rw [htw] at htz
          have hhead := congrArg List.head? htz
          rw [show (("c:url(".data ++ (B ++ [')'])) : List Char).head? = some 'c'
              from rfl] at hhead
          simp at hhead
        · rw [htw] at htz
          have hhead := congrArg List.head? htz
          rw [show ((":url(".data ++ (B ++ [')'])) : List Char).head? = some ':'
              from rfl] at hhead
          simp at hhead
        · rw [htw] at htz
          have hhead := congrArg List.head? htz
          rw [show (("url(".data ++ (B ++ [')'])) : List Char).head? = some 'u'
              from rfl] at hhead
          simp at hhead
        · rw [htw] at htz
          have hhead := congrArg List.head? htz
          rw [show (("rl(".data ++ (B ++ [')'])) : List Char).head? = some 'r'
              from rfl] at hhead
          simp at hhead
        · rw [htw] at htz
          have hhead := congrArg List.head? htz
          rw [show (("l(".data ++ (B ++ [')'])) : List Char).head? = some 'l'
              from rfl] at hhead
          simp at hhead
        · rw [htw] at htz
          have hhead := congrArg List.head? htz
          rw [show (("(".data ++ (B ++ [')'])) : List Char).head? = some '('
              from rfl] at hhead
          simp at hhead
        · exact hwne rfl
    · rcases w with _ | ⟨c1, w1⟩
      · exact hwne rfl
      · rw [htw] at htz
        have hc1 : c1 = 's' ∧ w1 ++ ("src:url(".data ++ (B ++ [')'])) = 'r' :: 'c' :: z := by
          simpa using htz
        rcases w1 with _ | ⟨c2, w2⟩
        · have hhead := congrArg List.head? hc1.2
          rw [show ((List.nil ++ ("src:url(".data ++ (B ++ [')']))) : List Char).head? =
              some 's' from rfl] at hhead
          simp at hhead
        · have hc2 : c2 = 'r' ∧ w2 ++ ("src:url(".data ++ (B ++ [')'])) = 'c' :: z := by
            simpa using hc1.2
          rcases w2 with _ | ⟨c3, w3⟩
          · have hhead := congrArg List.head? hc2.2
            rw [show ((List.nil ++ ("src:url(".data ++ (B ++ [')']))) : List Char).head? =
                some 's' from rfl] at hhead
            simp at hhead
          · have hc3 : c3 = 'c' ∧ w3 ++ ("src:url(".data ++ (B ++ [')'])) = z := by
              simpa using hc2.2
            obtain ⟨u, hu⟩ := hwA
            have hA : A = u ++ ("src".data ++ w3) := by
              rw [← hu, hc1.1, hc2.1, hc3.1]
              rfl
            rw [containsSeg_of_eq hA] at hAnosrc
            exact absurd hAnosrc (by simp)

theorem processBlock_none_of_no_src {block : List Char} {base_url : String}
    (hsrc : reFind matchSrcAt block = none) : processBlock block base_url = none := by
  cases hfam : reFind matchFamilyAt block with
  | none => simp [processBlock, hfam, hsrc]
  | some famC => simp [processBlock, hfam, hsrc]

theorem parse_minified_empty {A B base_url : String}
    (hA : '\x7d' ∉ A.data) (hB : '\x7d' ∉ B.data) (hBsemi : ';' ∉ B.data)
    (hAnosrc : containsSeg "src".data A.data = false) :
    parse_css_with_regex ("@font-face\x7b" ++ A ++ "src:url(" ++ B ++ ")\x7d")
      base_url = [] := by
  have hdata : ("@font-face\x7b" ++ A ++ "src:url(" ++ B ++ ")\x7d").data =
      "@font-face\x7b".data ++ (A.data ++ ("src:url(".data ++ (B.data ++ ")\x7d".data))) := by
    rw [string_data_append, string_data_append, string_data_append, string_data_append]
    simp [List.append_assoc]
  have hX : A.data ++ ("src:url(".data ++ (B.data ++ ")\x7d".data)) =
      (A.data ++ ("src:url(".data ++ (B.data ++ [')']))) ++ '\x7d' :: [] := by
    simp [List.append_assoc]
  have hm : matchBlockAt ("@font-face\x7b".data ++
      (A.data ++ ("src:url(".data ++ (B.data ++ ")\x7d".data)))) =
      some (A.data ++ ("src:url(".data ++ (B.data ++ [')'])), []) := by
    rw [show matchBlockAt ("@font-face\x7b".data ++
          (A.data ++ ("src:url(".data ++ (B.data ++ ")\x7d".data)))) =
        mPlusCap (fun c => c ≠ '\x7d')
          (A.data ++ ("src:url(".data ++ (B.data ++ ")\x7d".data)))
          (fun cap s4 => mLit "\x7d".data s4 (fun rest => some (cap, rest))) from rfl]
    rw [hX]
    apply mPlusCap_concat
    · intro x hx
      simp only [decide_eq_true_eq]
      rcases List.mem_append.1 hx with hx1 | hx2
      · exact fun hh => hA (hh ▸ hx1)
      · rcases List.mem_append.1 hx2 with hx3 | hx4
        · intro hh; rw [hh] at hx3; exact absurd hx3 (by decide)
        · rcases List.mem_append.1 hx4 with hx5 | hx6
          · exact fun hh => hB (hh ▸ hx5)
          · intro hh; rw [hh] at hx6; exact absurd hx6 (by decide)
    · decide
    · intro hcon
      have hlen := congrArg List.length hcon
      simp only [List.length_append, List.length_nil] at hlen
      rw [show ("src:url(".data).length = 8 from rfl] at hlen
      omega
    · rfl
  have hfind : reFind matchBlockAt ("@font-face\x7b".data ++
      (A.data ++ ("src:url(".data ++ (B.data ++ ")\x7d".data)))) =
      some (A.data ++ ("src:url(".data ++ (B.data ++ [')'])), []) :=
    reFind_cons_eq_some hm
  have hproc : processBlock (A.data ++ ("src:url(".data ++ (B.data ++ [')'])))
      base_url = none :=
    processBlock_none_of_no_src (srcFind_none_minified hBsemi hAnosrc)
  rw [parse_css_with_regex, hdata]
  obtain ⟨n, hn⟩ : ∃ n, ("@font-face\x7b".data ++
      (A.data ++ ("src:url(".data ++ (B.data ++ ")\x7d".data)))).length = n + 1 := by
    refine ⟨("@font-face\x7b".data ++
      (A.data ++ ("src:url(".data ++ (B.data ++ ")\x7d".data)))).length - 1, ?_⟩
    rw [List.length_append, show ("@font-face\x7b".data).length = 11 from rfl]
    omega
  rw [hn, findFaceBlocks, hfind]
  show List.filterMap (fun b => processBlock b base_url)
      ((A.data ++ ("src:url(".data ++ (B.data ++ [')']))) :: findFaceBlocks n []) = []
  rw [findFaceBlocks_nil, List.filterMap_cons, hproc, List.filterMap_nil]

/-- C10: in the regex fallback, a font-family or src declaration is
recognized only when terminated by a semicolon (every successful match of
either property regex contains `;`), and every minified block whose src
declaration is last and lacks a trailing semicolon yields no FontFace. -/
theorem claim_C10_fallback_needs_semicolon :
    (∀ t r : List Char, matchFamilyAt t = some r → ';' ∈ t) ∧
    (∀ t r : List Char, matchSrcAt t = some r → ';' ∈ t) ∧
    (∀ A B base_url : String, '\x7d' ∉ A.data → '\x7d' ∉ B.data → ';' ∉ B.data →
      containsSeg "src".data A.data = false →
      parse_css_with_regex ("@font-face\x7b" ++ A ++ "src:url(" ++ B ++ ")\x7d")
        base_url = []) := by
  refine ⟨?_, ?_, ?_⟩
  · intro t r h
    exact (matchFamilyAt_eq_some h).2
  · intro t r h
    exact (matchSrcAt_eq_some h).2
  · intro A B base_url h1 h2 h3 h4
    exact parse_minified_empty h1 h2 h3 h4

/-- Witness for C10: the minified block
`@font-face\x7bfont-family:'MyFont';src:url(a.woff)\x7d` produces no FontFace. -/
theorem claim_C10_witness :
    parse_css_with_regex
      ("@font-face\x7b" ++ "font-family:'MyFont';" ++ "src:url(" ++ "a.woff" ++ ")\x7d")
      "https://x.test/s.css" = [] :=
  claim_C10_fallback_needs_semicolon.2.2 "font-family:'MyFont';" "a.woff"
    "https://x.test/s.css" (by decide) (by decide) (by decide) (by decide)
